import Mathlib

/-!
Shallow embedding of the linear-classifier trainer in `iris.py` (the Iris
dataset experiment).  Machine floats are modelled as exact rationals, numpy
arrays as lists of lists, and every numpy operation that can raise an
exception (index errors, shape mismatches in `reshape`/`matmul`/broadcast,
division by zero, ragged `np.array` construction) is modelled by an
`Option`-valued function returning `none` on the failing inputs.

The transcendental `np.exp` has no exact counterpart on `ℚ`; all functions
that use it (`get_predicted_label_vectors` and the trainer) are therefore
parameterized by an arbitrary function `e : ℚ → ℚ` standing for the
pointwise exponential.  None of the verified claims depends on the values
`e` takes, so every theorem below quantifies over `e`.
-/

namespace Iris

/-- Label vectors / samples: 1-D numpy arrays of floats. -/
abbrev Vec := List ℚ

/-- Weight matrices, batches of samples, batches of label vectors:
2-D numpy arrays of floats, stored row-major. -/
abbrev Mat := List (List ℚ)

/-- The index list `[0, 1, ..., n-1]`, as produced by `np.arange` /
`range(n)`.  Structurally recursive so that it evaluates by `simp`. -/
def np_arange : Nat → List Nat
  | 0 => []
  | n + 1 => np_arange n ++ [n]

/-- Lexicographic comparison of character lists by code point, the order
`np.unique` sorts strings by. -/
def chars_le : List Char → List Char → Bool
  | [], _ => true
  | _ :: _, [] => false
  | c :: cs, d :: ds =>
    if c.val < d.val then true
    else if d.val < c.val then false
    else chars_le cs ds

/-- String comparison by code points (the sort order of `np.unique`). -/
def str_le (a b : String) : Bool := chars_le a.data b.data

/-- Insert a string into a sorted list of strings (used to model the sort
performed by `np.unique`). -/
def insert_sorted (x : String) : List String → List String
  | [] => [x]
  | y :: ys => if str_le x y then x :: y :: ys else y :: insert_sorted x ys

/-- `np.unique(labels)`: the distinct values of `labels`, sorted.
Modelled by insertion sort followed by removal of (adjacent, hence all)
duplicates. -/
def np_unique (l : List String) : List String :=
  (l.foldr insert_sorted []).dedup

/-- `np.where(labels == c)[0]`: the ascending list of indices `i` with
`labels[i] = c`. -/
def np_where (l : List String) (c : String) : List Nat :=
  (np_arange l.length).filter (fun i => l.getD i "" == c)

/-- Dot product of two vectors (`np.matmul` on 1-D operands). -/
def dot (a b : Vec) : ℚ := (List.zipWith (fun x y => x * y) a b).sum

/-- Elementwise difference of two equal-length vectors. -/
def vSub (a b : Vec) : Vec := List.zipWith (fun x y => x - y) a b

/-- Elementwise product of two equal-length vectors. -/
def vMul (a b : Vec) : Vec := List.zipWith (fun x y => x * y) a b

/-- Outer product: `np.matmul` of a column `c` (shape `(|c|, 1)`) with a row
`r` (shape `(1, |r|)`), giving a `|c| × |r|` matrix. -/
def outer (c r : Vec) : Mat := c.map (fun ci => r.map (fun rj => ci * rj))

/-- Elementwise sum of two same-shape matrices. -/
def matAdd (A B : Mat) : Mat := List.zipWith (fun ra rb => List.zipWith (fun x y => x + y) ra rb) A B

/-- Elementwise difference of two same-shape matrices. -/
def matSub (A B : Mat) : Mat := List.zipWith (fun ra rb => vSub ra rb) A B

/-- Scalar times matrix, elementwise. -/
def smulMat (a : ℚ) (A : Mat) : Mat := A.map (fun r => r.map (fun x => a * x))

/-- `np.zeros((m, n))`. -/
def zerosMat (m n : Nat) : Mat := List.replicate m (List.replicate n 0)

/-- `np.matmul(W, x)` for a 2-D `W` and 1-D `x`: fails (`ValueError`) unless
the row length of `W` equals the length of `x`. -/
def matVecOpt (W : Mat) (x : Vec) : Option Vec :=
  if W.all (fun r => r.length == x.length) then some (W.map (fun r => dot r x)) else none

/-- `np.transpose` of a rectangular 2-D array: column `j` of the input
becomes row `j` of the output. -/
def np_transpose (A : Mat) : Mat :=
  (np_arange (A.headD []).length).map (fun j => A.map (fun r => r.getD j 0))

/-- `np.matmul` of two 2-D matrices (used only inside `get_MSE`, where the
source always passes a matrix and its transpose, so no shape check is
needed on the claims' inputs). -/
def matMul (A B : Mat) : Mat :=
  A.map (fun ra => (np_transpose B).map (fun cb => dot ra cb))

/-- A list comprehension whose body may raise: `some` of the mapped list if
every element succeeds, `none` as soon as one element fails. -/
def mapOpt (f : α → Option β) : List α → Option (List β)
  | [] => some []
  | x :: xs =>
    match f x, mapOpt f xs with
    | some y, some ys => some (y :: ys)
    | _, _ => none

/-- `np.argmax`: index of the first occurrence of the maximum.  On the empty
vector numpy raises; callers that can reach that case guard it, and every
claim about `argmax` assumes a non-empty vector. -/
def argmax : List ℚ → Nat
  | [] => 0
  | x :: xs => if x < xs.foldl max x then argmax xs + 1 else 0

/-- `get_rounded_label_vector` (iris.py 62-66): one-hot vector with the 1 at
the (first) argmax of the input. -/
def get_rounded_label_vector (label_vector : Vec) : Vec :=
  (np_arange label_vector.length).map (fun i => if i = argmax label_vector then (1 : ℚ) else 0)

/-- `label_string_to_vector` (iris.py 166-171).  `index` is the (possibly
empty) array of positions where `classes` equals the label; the comparison
`i == index` broadcasts to one row per class position; `np.reshape` to
length `len(classes)` fails (`ValueError`) unless the total element count is
`len(classes)`, i.e. unless the label occurs exactly once (or `classes` is
empty, in which case an empty vector is returned). -/
def label_string_to_vector (string_label : String) (classes : List String) : Option Vec :=
  let index := np_where classes string_label
  let vector_label : Mat :=
    (np_arange classes.length).map (fun i => index.map (fun j => if i = j then (1 : ℚ) else 0))
  let flat := vector_label.flatten
  if flat.length = classes.length then some flat else none

/-- `label_vector_to_string` (iris.py 173-177): `classes[np.argmax(v)]`.
`np.argmax` raises on an empty vector and the indexing raises when the
argmax falls outside `classes`. -/
def label_vector_to_string (vector_label : Vec) (classes : List String) : Option String :=
  if vector_label.isEmpty then none else classes[argmax vector_label]?

/-- `get_predicted_label_vectors` (iris.py 53-58): for each sample `x`,
`1 / (e(-(W @ x)) + 1)` elementwise, with `e` the abstract exponential. -/
def get_predicted_label_vectors (e : ℚ → ℚ) (samples : Mat) (W : Mat) : Option Mat :=
  mapOpt (fun sample =>
    (matVecOpt W sample).map (fun z => z.map (fun zi => 1 / (e (-zi) + 1)))) samples

/-- Per-sample delta of the gradient step:
`(predicted − true) ⊙ predicted ⊙ (1 − predicted)` (iris.py 77-78, 82). -/
def delta_vec (g t : Vec) : Vec := vMul (vSub g t) (vMul g (g.map (fun x => 1 - x)))

/-- The summed weight gradient of `get_next_weight_matrix` (iris.py 82):
sum over samples `k` of the outer product of `delta_vec` with sample `k`.
The built-in `sum` starts from `0`, modelled as the zero matrix of the
common shape `3 × n0`. -/
def grad_W_MSE_sum (p l s : Mat) (n0 : Nat) : Mat :=
  ((np_arange p.length).map
    (fun k => outer (delta_vec (p.getD k []) (l.getD k [])) (s.getD k []))).foldl matAdd
    (zerosMat 3 n0)

/-- `get_next_weight_matrix` (iris.py 74-86).  Failure cases of the source:
`samples[0]` on an empty batch (IndexError); `predicted_labels - labels` on
mismatched shapes (ValueError); `np.reshape(sample, (1, num_features+1))`
when a sample's length differs from the first sample's (ValueError);
`np.reshape(delta, (3, 1))` when a label vector does not have length 3
(ValueError, the hard-coded `num_classes = 3`); `grad_W_z[k]` when there are
more predictions than samples (IndexError); and the final broadcast
`previous_W - alpha * grad`, which requires `previous_W` to be `3 × (nf+1)`
(general numpy broadcasting of other shapes is not modelled).  When the
prediction batch is empty the generator sums to the scalar `0` and the
function returns `previous_W` unchanged. -/
def get_next_weight_matrix (predicted_labels labels samples previous_W : Mat) (alpha : ℚ) :
    Option Mat :=
  match samples with
  | [] => none
  | s0 :: rest =>
    if predicted_labels.length == labels.length
        && ((predicted_labels.zip labels).all fun q => q.1.length == q.2.length)
        && ((s0 :: rest).all fun x => x.length == s0.length) then
      if predicted_labels.isEmpty then some previous_W
      else if (predicted_labels.all fun v => v.length == 3)
          && decide (predicted_labels.length ≤ (s0 :: rest).length)
          && previous_W.length == 3
          && (previous_W.all fun r => r.length == s0.length) then
        some (matSub previous_W
          (smulMat alpha (grad_W_MSE_sum predicted_labels labels (s0 :: rest) s0.length)))
      else none
    else none

/-- `get_MSE` (iris.py 126-129): with `E = predicted − true` (row `k` is
sample `k`), return `np.sum(Eᵀ @ E) / 2` — the sum of ALL entries of the
`numClasses × numClasses` Gram matrix, not only its diagonal.  The
subtraction `predicted - true` raises a broadcast `ValueError` when the two
batches do not have the same shape (e.g. `(1, 3)` minus `(1, 2)`); as with
the gradient step this is modelled as requiring equal shapes (`none`
otherwise; numpy broadcasting of unequal but broadcastable shapes is not
modelled). -/
def get_MSE (predicted_label_vectors true_label_vectors : Mat) : Option ℚ :=
  if predicted_label_vectors.length == true_label_vectors.length
      && ((predicted_label_vectors.zip true_label_vectors).all
            fun q => q.1.length == q.2.length) then
    let error := List.zipWith vSub predicted_label_vectors true_label_vectors
    let error_T := np_transpose error
    some (((matMul error_T error).map (fun r => r.sum)).sum / 2)
  else none

/-- The MSE the specification describes (eq. 3.19 of the referenced
textbook): half the sum of squared elementwise errors over all samples and
classes.  Stated from the specification's words, for comparison with
`get_MSE`. -/
def mse_spec (predicted_label_vectors true_label_vectors : Mat) : ℚ :=
  (List.zipWith
    (fun g t => (List.zipWith (fun x y => (x - y) ^ 2) g t).sum)
    predicted_label_vectors true_label_vectors).sum / 2

/-- `get_error_rate` (iris.py 133-142): fraction of samples whose rounded
prediction differs from the true vector.  Raises IndexError when there are
fewer predictions than true vectors and ZeroDivisionError on an empty true
batch. -/
def get_error_rate (predicted_label_vectors true_label_vectors : Mat) : Option ℚ :=
  if true_label_vectors.length ≤ predicted_label_vectors.length then
    if true_label_vectors.length = 0 then none
    else
      some ((((np_arange true_label_vectors.length).filter
        (fun i => !(true_label_vectors.getD i [] == predicted_label_vectors.getD i []))).length : ℚ)
        / (true_label_vectors.length : ℚ))
  else none

/-- One pass of the training loop body (iris.py 103-119): predict on the
train set, take a gradient step, predict on the test set with the new
weights, round, compute and append the epoch's MSE, then compute and
append the epoch's error rate (the source computes the MSE on line 115
before the error rate on line 118). -/
def train_step (e : ℚ → ℚ) (train_samples train_label_vectors test_samples test_label_vectors : Mat)
    (alpha : ℚ) (st : Mat × List ℚ × List ℚ) : Option (Mat × List ℚ × List ℚ) :=
  (get_predicted_label_vectors e train_samples st.1).bind fun predicted_train =>
    (get_next_weight_matrix predicted_train train_label_vectors train_samples st.1 alpha).bind
      fun W =>
        (get_predicted_label_vectors e test_samples W).bind fun predicted_test =>
          (get_MSE predicted_test test_label_vectors).bind fun m =>
            (get_error_rate (predicted_test.map get_rounded_label_vector)
                test_label_vectors).bind fun err =>
              some (W, st.2.1 ++ [m], st.2.2 ++ [err])

/-- `for curr_iteration in range(num_iterations)`: the loop body does not
depend on the iteration index, so the loop is iteration of `step`. -/
def run_iterations (step : α → Option α) : Nat → α → Option α
  | 0, st => some st
  | n + 1, st => (step st).bind (run_iterations step n)

/-- `train_linear_classifier` (iris.py 92-121): start from the zero
`3 × (len(features)+1)` weight matrix and run the loop body
`num_iterations` times, collecting the per-iteration MSE and error-rate
series.  (The unused local `classes = np.unique(train_label_vectors)` of
the source is omitted.) -/
def train_linear_classifier (e : ℚ → ℚ)
    (train_samples train_label_vectors test_samples test_label_vectors : Mat)
    (features : List String) (num_iterations : Nat) (alpha : ℚ) :
    Option (Mat × List ℚ × List ℚ) :=
  let num_classes := 3
  let num_features := features.length
  run_iterations
    (train_step e train_samples train_label_vectors test_samples test_label_vectors alpha)
    num_iterations
    (zerosMat num_classes (num_features + 1), [], [])

/-- One cell of the confusion matrix (the inner loop body of
`get_confusion_matrix`, iris.py 151-160): the number of indices in both
`np.where(labels == true_class)` and
`np.where(predicted_labels == predicted_class)` (`np.intersect1d` of two
duplicate-free index arrays has one entry per common index). -/
def confusion_cell (predicted_labels labels : List String)
    (predicted_class true_class : String) : Nat :=
  ((np_where labels true_class).filter
    (fun i => decide (i ∈ np_where predicted_labels predicted_class))).length

/-- `get_confusion_matrix` (iris.py 144-164): classes are
`np.unique(labels)` — taken from the TRUE labels only; rows are indexed by
predicted class, columns by true class. -/
def get_confusion_matrix (predicted_labels labels : List String) : List (List Nat) :=
  let classes := np_unique labels
  classes.map (fun predicted_class =>
    classes.map (fun true_class =>
      confusion_cell predicted_labels labels predicted_class true_class))

/-- The per-class index lists of `split_dataset` (iris.py 28-32): for each
class of `np.unique(labels)`, the indices of the samples of that class. -/
def indices_by_class (labels : List String) : List (List Nat) :=
  (np_unique labels).map (np_where labels)

/-- `split_dataset` (iris.py 25-43).  The per-class index lists are packed
into one `np.array` and sliced along axis 1; this fails unless the lists
form a rectangular array — when the lists are ragged (classes with unequal
sample counts) or there are no classes at all, the 2-D slice raises.  On
success the first set takes indices `[0, split_index)` of every class and
the last set the rest, both gathered with `np.take`. -/
def split_dataset (samples : Mat) (labels : List String) (split_index : Nat) :
    Option ((Mat × List String) × (Mat × List String)) :=
  match indices_by_class labels with
  | [] => none
  | r0 :: rest =>
    if (r0 :: rest).all (fun r => r.length == r0.length) then
      let first_set_indices := ((r0 :: rest).map (fun r => r.take split_index)).flatten
      let last_set_indices := ((r0 :: rest).map (fun r => r.drop split_index)).flatten
      some ((first_set_indices.map (fun i => samples.getD i []),
             first_set_indices.map (fun i => labels.getD i "")),
            (last_set_indices.map (fun i => samples.getD i []),
             last_set_indices.map (fun i => labels.getD i "")))
    else none

/-! ### Basic lemmas about the index and class utilities -/

theorem np_arange_eq_range (n : Nat) : np_arange n = List.range n := by
  induction n with
  | zero => rfl
  | succ n ih => rw [np_arange, ih, List.range_succ]

theorem mem_np_arange {i n : Nat} : i ∈ np_arange n ↔ i < n := by
  rw [np_arange_eq_range, List.mem_range]

theorem pairwise_np_arange (n : Nat) : (np_arange n).Pairwise (· < ·) := by
  rw [np_arange_eq_range]; exact List.pairwise_lt_range n

theorem mem_np_where {l : List String} {c : String} {i : Nat} :
    i ∈ np_where l c ↔ i < l.length ∧ l.getD i "" = c := by
  simp [np_where, List.mem_filter, mem_np_arange]

theorem np_where_pairwise (l : List String) (c : String) :
    (np_where l c).Pairwise (· < ·) :=
  (pairwise_np_arange _).filter _

theorem np_where_sorted (l : List String) (c : String) :
    List.Sorted (· < ·) (np_where l c) :=
  np_where_pairwise l c

theorem np_where_nodup (l : List String) (c : String) : (np_where l c).Nodup :=
  (np_where_pairwise l c).imp Nat.ne_of_lt

theorem mem_insert_sorted {y x : String} {l : List String} :
    y ∈ insert_sorted x l ↔ y = x ∨ y ∈ l := by
  induction l with
  | nil => simp [insert_sorted]
  | cons a l ih =>
    by_cases h : str_le x a
    · simp [insert_sorted, h]
    · simp [insert_sorted, h, ih]
      tauto

theorem mem_foldr_insert_sorted {y : String} {l : List String} :
    y ∈ l.foldr insert_sorted [] ↔ y ∈ l := by
  induction l with
  | nil => simp
  | cons a l ih => simp [mem_insert_sorted, ih]

theorem mem_np_unique {y : String} {l : List String} : y ∈ np_unique l ↔ y ∈ l := by
  simp [np_unique, List.mem_dedup, mem_foldr_insert_sorted]

theorem np_unique_nodup (l : List String) : (np_unique l).Nodup :=
  List.nodup_dedup _

theorem np_unique_ne_nil {l : List String} (h : l ≠ []) : np_unique l ≠ [] := by
  obtain ⟨a, t, rfl⟩ := List.exists_cons_of_ne_nil h
  intro hu
  have : a ∈ np_unique (a :: t) := mem_np_unique.mpr (List.mem_cons_self a t)
  simp [hu] at this

theorem getD_mem {α : Type _} {l : List α} {i : Nat} (d : α) (h : i < l.length) :
    l.getD i d ∈ l := by
  rw [List.getD_eq_getElem l d h]; exact List.getElem_mem h

/-! ### Shape lemmas for the matrix primitives -/

theorem length_vSub (a b : Vec) : (vSub a b).length = min a.length b.length :=
  List.length_zipWith _ a b

theorem length_vMul (a b : Vec) : (vMul a b).length = min a.length b.length :=
  List.length_zipWith _ a b

theorem length_delta_vec {g t : Vec} (hg : g.length = 3) (ht : t.length = 3) :
    (delta_vec g t).length = 3 := by
  simp [delta_vec, length_vMul, length_vSub, hg, ht]

theorem length_outer (c r : Vec) : (outer c r).length = c.length :=
  List.length_map _ _

theorem mem_outer_length {c r : Vec} {row : Vec} (h : row ∈ outer c r) :
    row.length = r.length := by
  obtain ⟨ci, _, rfl⟩ := List.mem_map.mp h
  simp

theorem mem_zipWith {α β γ : Type _} {f : α → β → γ} {l₁ : List α} {l₂ : List β} {c : γ}
    (h : c ∈ List.zipWith f l₁ l₂) : ∃ a ∈ l₁, ∃ b ∈ l₂, c = f a b := by
  induction l₁ generalizing l₂ with
  | nil => simp at h
  | cons a t ih =>
    cases l₂ with
    | nil => simp at h
    | cons b t₂ =>
      rcases List.mem_cons.mp h with h' | h'
      · exact ⟨a, List.mem_cons_self _ _, b, List.mem_cons_self _ _, h'⟩
      · obtain ⟨x, hx, y, hy, rfl⟩ := ih h'
        exact ⟨x, List.mem_cons_of_mem _ hx, y, List.mem_cons_of_mem _ hy, rfl⟩

theorem length_matAdd (A B : Mat) : (matAdd A B).length = min A.length B.length :=
  List.length_zipWith _ A B

theorem length_matSub (A B : Mat) : (matSub A B).length = min A.length B.length :=
  List.length_zipWith _ A B

theorem length_smulMat (a : ℚ) (A : Mat) : (smulMat a A).length = A.length :=
  List.length_map _ _

theorem length_zerosMat (m n : Nat) : (zerosMat m n).length = m :=
  List.length_replicate _ _

theorem mem_zerosMat_length {m n : Nat} {r : Vec} (h : r ∈ zerosMat m n) : r.length = n := by
  rw [List.eq_of_mem_replicate h]; exact List.length_replicate _ _

theorem matAdd_shape {A B : Mat} {m n : Nat}
    (hA : A.length = m ∧ ∀ r ∈ A, r.length = n) (hB : B.length = m ∧ ∀ r ∈ B, r.length = n) :
    (matAdd A B).length = m ∧ ∀ r ∈ matAdd A B, r.length = n := by
  refine ⟨by simp [length_matAdd, hA.1, hB.1], fun r hr => ?_⟩
  obtain ⟨a, ha, b, hb, rfl⟩ := mem_zipWith hr
  simp [List.length_zipWith, hA.2 a ha, hB.2 b hb]

theorem foldl_matAdd_shape {L : List Mat} {init : Mat} {m n : Nat}
    (hinit : init.length = m ∧ ∀ r ∈ init, r.length = n)
    (hL : ∀ M ∈ L, M.length = m ∧ ∀ r ∈ M, r.length = n) :
    (L.foldl matAdd init).length = m ∧ ∀ r ∈ L.foldl matAdd init, r.length = n := by
  induction L generalizing init with
  | nil => exact hinit
  | cons M L ih =>
    exact ih (matAdd_shape hinit (hL M (List.mem_cons_self _ _)))
      (fun M' hM' => hL M' (List.mem_cons_of_mem _ hM'))

theorem le_foldl_max (x : ℚ) (l : List ℚ) : x ≤ l.foldl max x := by
  induction l generalizing x with
  | nil => exact le_refl x
  | cons a l ih => exact le_trans (le_max_left x a) (ih (max x a))

theorem mem_le_foldl_max {y : ℚ} {l : List ℚ} (x : ℚ) (h : y ∈ l) : y ≤ l.foldl max x := by
  induction l generalizing x with
  | nil => simp at h
  | cons a l ih =>
    rcases List.mem_cons.mp h with rfl | h'
    · exact le_trans (le_max_right x y) (le_foldl_max _ l)
    · exact ih _ h'

theorem foldl_max_cases (x : ℚ) (l : List ℚ) : l.foldl max x = x ∨ l.foldl max x ∈ l := by
  induction l generalizing x with
  | nil => exact Or.inl rfl
  | cons a l ih =>
    rcases ih (max x a) with h | h
    · rcases max_choice x a with h' | h'
      · exact Or.inl (by rw [List.foldl_cons, h, h'])
      · exact Or.inr (by rw [List.foldl_cons, h, h']; exact List.mem_cons_self _ _)
    · exact Or.inr (List.mem_cons_of_mem _ h)

theorem argmax_lt_length {v : List ℚ} (h : v ≠ []) : argmax v < v.length := by
  induction v with
  | nil => exact absurd rfl h
  | cons x xs ih =>
    rw [argmax]
    split
    · next hlt =>
      have hxs : xs ≠ [] := by
        intro hnil
        rw [hnil] at hlt
        exact lt_irrefl x hlt
      simpa using ih hxs
    · simp

theorem argmax_is_max {v : List ℚ} : ∀ j < v.length, v.getD j 0 ≤ v.getD (argmax v) 0 := by
  induction v with
  | nil => intro j hj; simp at hj
  | cons x xs ih =>
    intro j hj
    rw [argmax]
    split
    · next hlt =>
      have hxs : xs ≠ [] := by
        intro hnil; rw [hnil] at hlt; exact lt_irrefl x hlt
      rw [List.getD_cons_succ]
      -- the value at the recursive argmax dominates every element of xs and x
      have hmax_mem : xs.foldl max x ∈ xs := by
        rcases foldl_max_cases x xs with h | h
        · rw [h] at hlt; exact absurd hlt (lt_irrefl x)
        · exact h
      obtain ⟨k, hk, hkv⟩ := List.mem_iff_getElem.mp hmax_mem
      have hk' : xs.getD k 0 = xs.foldl max x := by rw [List.getD_eq_getElem xs 0 hk, hkv]
      have hbig : xs.foldl max x ≤ xs.getD (argmax xs) 0 := by
        rw [← hk']; exact ih k hk
      match j, hj with
      | 0, _ => exact le_trans (le_of_lt hlt) hbig
      | j + 1, hj =>
        rw [List.getD_cons_succ]
        exact ih j (by simpa using hj)
    · next hle =>
      push_neg at hle
      match j, hj with
      | 0, _ => simp
      | j + 1, hj =>
        rw [List.getD_cons_succ, List.getD_cons_zero]
        have hjmem : xs.getD j 0 ∈ xs := getD_mem 0 (by simpa using hj)
        exact le_trans (mem_le_foldl_max x hjmem) hle

theorem argmax_first {v : List ℚ} : ∀ j < argmax v, v.getD j 0 < v.getD (argmax v) 0 := by
  induction v with
  | nil => intro j hj; simp [argmax] at hj
  | cons x xs ih =>
    intro j hj
    rw [argmax] at hj ⊢
    split at hj
    · next hlt =>
      have hxs : xs ≠ [] := by
        intro hnil; rw [hnil] at hlt; exact lt_irrefl x hlt
      have hmax_mem : xs.foldl max x ∈ xs := by
        rcases foldl_max_cases x xs with h | h
        · rw [h] at hlt; exact absurd hlt (lt_irrefl x)
        · exact h
      obtain ⟨k, hk, hkv⟩ := List.mem_iff_getElem.mp hmax_mem
      have hk' : xs.getD k 0 = xs.foldl max x := by rw [List.getD_eq_getElem xs 0 hk, hkv]
      have hbig : xs.foldl max x ≤ xs.getD (argmax xs) 0 := by
        rw [← hk']; exact argmax_is_max k hk
      rw [if_pos hlt]
      match j, hj with
      | 0, _ =>
        rw [List.getD_cons_zero, List.getD_cons_succ]
        exact lt_of_lt_of_le hlt hbig
      | j + 1, hj =>
        rw [List.getD_cons_succ, List.getD_cons_succ]
        exact ih j (by omega)
    · omega

/-! ### Lemmas about one-hot vectors -/

theorem getD_map_np_arange {α : Type _} (f : Nat → α) {n i : Nat} (d : α) (h : i < n) :
    ((np_arange n).map f).getD i d = f i := by
  have hlen : i < ((np_arange n).map f).length := by
    simpa [np_arange_eq_range] using h
  rw [List.getD_eq_getElem _ d hlen, List.getElem_map]
  congr 1
  simp [np_arange_eq_range]

theorem sum_indicator_np_arange (n a : Nat) :
    (((np_arange n).map (fun i => if i = a then (1 : ℚ) else 0)).sum) =
      if a < n then 1 else 0 := by
  induction n with
  | zero => simp [np_arange]
  | succ n ih =>
    rw [np_arange, List.map_append, List.sum_append, ih]
    by_cases h : a < n
    · have : a ≠ n := Nat.ne_of_lt h
      have : ¬(n = a) := fun hc => this hc.symm
      simp [*, Nat.lt_succ_of_lt h]
    · by_cases h' : a = n
      · simp [h', h, Nat.lt_succ_self]
      · have hn : ¬(n = a) := fun hc => h' hc.symm
        have : ¬(a < n + 1) := by omega
        simp [*]

theorem argmax_indicator {j n : Nat} (hj : j < n) :
    argmax ((np_arange n).map (fun i => if i = j then (1 : ℚ) else 0)) = j := by
  set v := (np_arange n).map (fun i => if i = j then (1 : ℚ) else 0) with hv
  have hlen : v.length = n := by simp [hv, np_arange_eq_range]
  have hne : v ≠ [] := by
    intro h
    rw [h] at hlen
    simp at hlen
    omega
  have ha_lt : argmax v < n := hlen ▸ argmax_lt_length hne
  have hval : v.getD (argmax v) 0 = if argmax v = j then (1 : ℚ) else 0 :=
    getD_map_np_arange _ 0 ha_lt
  have hj_le : v.getD j 0 ≤ v.getD (argmax v) 0 := argmax_is_max j (hlen ▸ hj)
  have hjval : v.getD j 0 = 1 := by
    rw [getD_map_np_arange _ 0 hj]; simp
  by_contra hne'
  rw [hjval, hval, if_neg hne'] at hj_le
  exact absurd hj_le (by norm_num)

/-! ### Success lemmas for the `Option`-valued operations -/

theorem mapOpt_eq_some {α β : Type _} {f : α → Option β} {g : α → β} {l : List α}
    (h : ∀ x ∈ l, f x = some (g x)) : mapOpt f l = some (l.map g) := by
  induction l with
  | nil => rfl
  | cons x xs ih =>
    rw [mapOpt, h x (List.mem_cons_self _ _), ih (fun y hy => h y (List.mem_cons_of_mem _ hy))]
    rfl

theorem matVecOpt_eq {W : Mat} {x : Vec} (h : ∀ r ∈ W, r.length = x.length) :
    matVecOpt W x = some (W.map (fun r => dot r x)) := by
  rw [matVecOpt, if_pos]
  simp only [List.all_eq_true, beq_iff_eq]
  exact h

theorem get_predicted_label_vectors_eq (e : ℚ → ℚ) (samples W : Mat)
    (h : ∀ x ∈ samples, ∀ r ∈ W, r.length = x.length) :
    get_predicted_label_vectors e samples W =
      some (samples.map (fun x =>
        (W.map (fun r => dot r x)).map (fun zi => 1 / (e (-zi) + 1)))) := by
  refine mapOpt_eq_some (fun x hx => ?_)
  rw [matVecOpt_eq (h x hx)]
  rfl

theorem grad_W_MSE_sum_shape (p l s : Mat) (n0 : Nat)
    (hpl : p.length = l.length) (hps : p.length ≤ s.length)
    (hp3 : ∀ v ∈ p, v.length = 3) (hl3 : ∀ v ∈ l, v.length = 3)
    (hs : ∀ x ∈ s, x.length = n0) :
    (grad_W_MSE_sum p l s n0).length = 3 ∧ ∀ r ∈ grad_W_MSE_sum p l s n0, r.length = n0 := by
  rw [grad_W_MSE_sum]
  apply foldl_matAdd_shape
  · exact ⟨length_zerosMat 3 n0, fun r hr => mem_zerosMat_length hr⟩
  · intro M hM
    obtain ⟨k, hk, rfl⟩ := List.mem_map.mp hM
    have hk' : k < p.length := mem_np_arange.mp hk
    constructor
    · rw [length_outer]
      exact length_delta_vec (hp3 _ (getD_mem [] hk')) (hl3 _ (getD_mem [] (hpl ▸ hk')))
    · intro r hr
      rw [mem_outer_length hr]
      exact hs _ (getD_mem [] (lt_of_lt_of_le hk' hps))

theorem get_next_weight_matrix_eq {p l : Mat} {s0 : Vec} {srest : List Vec} {W : Mat} {a : ℚ}
    (hne : p ≠ [])
    (hpl : p.length = l.length)
    (hps : p.length = (s0 :: srest).length)
    (hp3 : ∀ v ∈ p, v.length = 3)
    (hl3 : ∀ v ∈ l, v.length = 3)
    (hs : ∀ x ∈ s0 :: srest, x.length = s0.length)
    (hW3 : W.length = 3)
    (hWr : ∀ r ∈ W, r.length = s0.length) :
    get_next_weight_matrix p l (s0 :: srest) W a =
      some (matSub W (smulMat a (grad_W_MSE_sum p l (s0 :: srest) s0.length))) := by
  have h1 : (p.length == l.length
      && ((p.zip l).all fun q => q.1.length == q.2.length)
      && ((s0 :: srest).all fun x => x.length == s0.length)) = true := by
    simp only [Bool.and_eq_true, beq_iff_eq, List.all_eq_true]
    refine ⟨⟨hpl, fun q hq => ?_⟩, fun x hx => by rw [hs x hx]⟩
    have hmem := List.of_mem_zip hq
    rw [hp3 _ hmem.1, hl3 _ hmem.2]
  have h2 : p.isEmpty = false := by
    cases p with
    | nil => exact absurd rfl hne
    | cons a t => rfl
  have h3 : ((p.all fun v => v.length == 3)
      && decide (p.length ≤ (s0 :: srest).length)
      && W.length == 3
      && (W.all fun r => r.length == s0.length)) = true := by
    simp only [Bool.and_eq_true, beq_iff_eq, List.all_eq_true, decide_eq_true_eq]
    exact ⟨⟨⟨fun v hv => by rw [hp3 v hv], le_of_eq hps⟩, hW3⟩,
      fun r hr => by rw [hWr r hr]⟩
  simp only [get_next_weight_matrix, h1, h2, h3, if_true, Bool.false_eq_true, if_false]

theorem get_MSE_some {p t : Mat} (hlen : p.length = t.length)
    (hrows : ∀ q ∈ p.zip t, q.1.length = q.2.length) :
    ∃ m, get_MSE p t = some m := by
  rw [get_MSE, if_pos]
  · exact ⟨_, rfl⟩
  · simp only [Bool.and_eq_true, beq_iff_eq, List.all_eq_true]
    exact ⟨hlen, fun q hq => by rw [hrows q hq]⟩

theorem get_error_rate_some {p t : Mat} (hle : t.length ≤ p.length) (hne : t ≠ []) :
    ∃ r, get_error_rate p t = some r := by
  rw [get_error_rate, if_pos hle, if_neg]
  · exact ⟨_, rfl⟩
  · simpa [List.length_eq_zero] using hne

theorem train_step_success (e : ℚ → ℚ) (ts tl tes tel : Mat) (a : ℚ) (nf : Nat)
    (hts : ts ≠ [])
    (hts_len : ∀ x ∈ ts, x.length = nf + 1)
    (htl_len : tl.length = ts.length)
    (htl3 : ∀ v ∈ tl, v.length = 3)
    (htes : ∀ x ∈ tes, x.length = nf + 1)
    (htel : tel.length = tes.length)
    (htel3 : ∀ v ∈ tel, v.length = 3)
    (htel_ne : tel ≠ [])
    (W : Mat) (hW3 : W.length = 3) (hWr : ∀ r ∈ W, r.length = nf + 1)
    (ms errs : List ℚ) :
    ∃ W' m err,
      train_step e ts tl tes tel a (W, ms, errs) = some (W', ms ++ [m], errs ++ [err])
        ∧ W'.length = 3 ∧ ∀ r ∈ W', r.length = nf + 1 := by
  obtain ⟨t0, tsr, rfl⟩ := List.exists_cons_of_ne_nil hts
  have ht0 : t0.length = nf + 1 := hts_len t0 (List.mem_cons_self _ _)
  -- prediction on the train set succeeds
  have hpred : get_predicted_label_vectors e (t0 :: tsr) W =
      some ((t0 :: tsr).map (fun x =>
        (W.map (fun r => dot r x)).map (fun zi => 1 / (e (-zi) + 1)))) :=
    get_predicted_label_vectors_eq e (t0 :: tsr) W
      (fun x hx r hr => by rw [hWr r hr, hts_len x hx])
  have hp3 : ∀ v ∈ (t0 :: tsr).map (fun x =>
      (W.map (fun r => dot r x)).map (fun zi => 1 / (e (-zi) + 1))), v.length = 3 := by
    intro v hv
    obtain ⟨x, _, rfl⟩ := List.mem_map.mp hv
    simp [hW3]
  -- the gradient step succeeds
  have hgrad := grad_W_MSE_sum_shape
    ((t0 :: tsr).map (fun x =>
      (W.map (fun r => dot r x)).map (fun zi => 1 / (e (-zi) + 1))))
    tl (t0 :: tsr) t0.length
    (by simp [htl_len]) (by simp) hp3 htl3
    (fun x hx => by rw [hts_len x hx, ht0])
  have hnext : get_next_weight_matrix
      ((t0 :: tsr).map (fun x =>
        (W.map (fun r => dot r x)).map (fun zi => 1 / (e (-zi) + 1))))
      tl (t0 :: tsr) W a =
      some (matSub W (smulMat a (grad_W_MSE_sum
        ((t0 :: tsr).map (fun x =>
          (W.map (fun r => dot r x)).map (fun zi => 1 / (e (-zi) + 1))))
        tl (t0 :: tsr) t0.length))) :=
    get_next_weight_matrix_eq (by simp) (by simp [htl_len]) (by simp) hp3 htl3
      (fun x hx => by rw [hts_len x hx, ht0]) hW3
      (fun r hr => by rw [hWr r hr, ht0])
  -- shape of the updated weight matrix
  have hW'3 : (matSub W (smulMat a (grad_W_MSE_sum
      ((t0 :: tsr).map (fun x =>
        (W.map (fun r => dot r x)).map (fun zi => 1 / (e (-zi) + 1))))
      tl (t0 :: tsr) t0.length))).length = 3 := by
    rw [length_matSub, length_smulMat, hgrad.1, hW3]
    simp
  have hW'r : ∀ r ∈ matSub W (smulMat a (grad_W_MSE_sum
      ((t0 :: tsr).map (fun x =>
        (W.map (fun r => dot r x)).map (fun zi => 1 / (e (-zi) + 1))))
      tl (t0 :: tsr) t0.length)), r.length = nf + 1 := by
    intro r hr
    obtain ⟨rw1, hrw1, rw2, hrw2, rfl⟩ := mem_zipWith hr
    obtain ⟨rg, hrg, rfl⟩ := List.mem_map.mp hrw2
    rw [length_vSub, hWr rw1 hrw1]
    simp only [List.length_map]
    rw [hgrad.2 rg hrg, ht0]
    simp
  generalize hG : matSub W (smulMat a (grad_W_MSE_sum
      ((t0 :: tsr).map (fun x =>
        (W.map (fun r => dot r x)).map (fun zi => 1 / (e (-zi) + 1))))
      tl (t0 :: tsr) t0.length)) = W' at hnext hW'3 hW'r
  -- prediction on the test set succeeds
  have hpred2 : get_predicted_label_vectors e tes W' =
      some (tes.map (fun x =>
        (W'.map (fun r => dot r x)).map (fun zi => 1 / (e (-zi) + 1)))) :=
    get_predicted_label_vectors_eq e tes W'
      (fun x hx r hr => by rw [hW'r r hr, htes x hx])
  -- the MSE is defined (equal shapes)
  obtain ⟨m, hmse⟩ := get_MSE_some
    (p := tes.map (fun x =>
      (W'.map (fun r => dot r x)).map (fun zi => 1 / (e (-zi) + 1))))
    (t := tel) (by simp [htel])
    (by
      intro q hq
      have hq' := List.of_mem_zip hq
      obtain ⟨x, _, hx⟩ := List.mem_map.mp hq'.1
      rw [← hx]
      simp only [List.length_map]
      rw [hW'3, htel3 q.2 hq'.2])
  -- the error rate is defined
  obtain ⟨err, herr⟩ := get_error_rate_some
    (p := (tes.map (fun x =>
      (W'.map (fun r => dot r x)).map (fun zi => 1 / (e (-zi) + 1)))).map
        get_rounded_label_vector)
    (t := tel) (by simp [htel]) htel_ne
  refine ⟨W', m, err, ?_, hW'3, hW'r⟩
  have hunfold : train_step e (t0 :: tsr) tl tes tel a (W, ms, errs)
      = (get_predicted_label_vectors e (t0 :: tsr) W).bind (fun pt =>
          (get_next_weight_matrix pt tl (t0 :: tsr) W a).bind (fun W2 =>
            (get_predicted_label_vectors e tes W2).bind (fun pe =>
              (get_MSE pe tel).bind (fun m' =>
                (get_error_rate (pe.map get_rounded_label_vector) tel).bind (fun er =>
                  some (W2, ms ++ [m'], errs ++ [er])))))) := rfl
  rw [hunfold, hpred, Option.some_bind, hnext, Option.some_bind, hpred2, Option.some_bind,
    hmse, Option.some_bind, herr, Option.some_bind]

theorem run_train_iterations (e : ℚ → ℚ) (ts tl tes tel : Mat) (a : ℚ) (nf : Nat)
    (hts : ts ≠ [])
    (hts_len : ∀ x ∈ ts, x.length = nf + 1)
    (htl_len : tl.length = ts.length)
    (htl3 : ∀ v ∈ tl, v.length = 3)
    (htes : ∀ x ∈ tes, x.length = nf + 1)
    (htel : tel.length = tes.length)
    (htel3 : ∀ v ∈ tel, v.length = 3)
    (htel_ne : tel ≠ []) :
    ∀ (N : Nat) (W : Mat) (ms errs : List ℚ), W.length = 3 → (∀ r ∈ W, r.length = nf + 1) →
      ∃ W' ms' errs',
        run_iterations (train_step e ts tl tes tel a) N (W, ms, errs)
          = some (W', ms ++ ms', errs ++ errs')
        ∧ ms'.length = N ∧ errs'.length = N
        ∧ W'.length = 3 ∧ ∀ r ∈ W', r.length = nf + 1 := by
  intro N
  induction N with
  | zero =>
    intro W ms errs hW3 hWr
    exact ⟨W, [], [], by simp [run_iterations], rfl, rfl, hW3, hWr⟩
  | succ n ih =>
    intro W ms errs hW3 hWr
    obtain ⟨W1, m, err, hstep, hW1, hW1r⟩ :=
      train_step_success e ts tl tes tel a nf hts hts_len htl_len htl3 htes htel htel3
        htel_ne W hW3 hWr ms errs
    obtain ⟨W', ms', errs', hrun, hms, herrs, hfin, hfinr⟩ :=
      ih W1 (ms ++ [m]) (errs ++ [err]) hW1 hW1r
    refine ⟨W', m :: ms', err :: errs', ?_, by simp [hms], by simp [herrs], hfin, hfinr⟩
    rw [run_iterations, hstep]
    rw [Option.some_bind, hrun]
    simp

theorem np_where_eq_nil {classes : List String} {label : String} (h : label ∉ classes) :
    np_where classes label = [] := by
  rw [List.eq_nil_iff_forall_not_mem]
  intro i hi
  obtain ⟨hlt, hget⟩ := mem_np_where.mp hi
  exact h (hget ▸ getD_mem "" hlt)

theorem eq_singleton_of_mem {α : Type _} {L : List α} {j : α}
    (hnd : L.Nodup) (hj : j ∈ L) (hall : ∀ i ∈ L, i = j) : L = [j] := by
  cases L with
  | nil => simp at hj
  | cons a t =>
    have ha : a = j := hall a (List.mem_cons_self _ _)
    subst ha
    have ht : t = [] := by
      cases t with
      | nil => rfl
      | cons b t' =>
        have hb : b = a := hall b (List.mem_cons_of_mem _ (List.mem_cons_self _ _))
        subst hb
        exact absurd (List.mem_cons_self _ _) ((List.nodup_cons.mp hnd).1)
    rw [ht]

theorem np_where_singleton {classes : List String} {label : String}
    (hnd : classes.Nodup) (hmem : label ∈ classes) :
    ∃ j, j < classes.length ∧ classes.getD j "" = label ∧ np_where classes label = [j] := by
  obtain ⟨j, hj, hget⟩ := List.mem_iff_getElem.mp hmem
  refine ⟨j, hj, by rw [List.getD_eq_getElem classes "" hj, hget], ?_⟩
  refine eq_singleton_of_mem (np_where_nodup _ _) ?_ ?_
  · exact mem_np_where.mpr ⟨hj, by rw [List.getD_eq_getElem classes "" hj, hget]⟩
  · intro i hi
    obtain ⟨hlt, hgi⟩ := mem_np_where.mp hi
    apply (List.Nodup.getElem_inj_iff hnd).mp
    rw [hget, ← hgi, List.getD_eq_getElem classes "" hlt]

theorem flatten_map_singleton {α β : Type _} (l : List α) (f : α → β) :
    (l.map (fun x => [f x])).flatten = l.map f := by
  induction l with
  | nil => rfl
  | cons a t ih => simp [ih]

theorem flatten_map_nil {α β : Type _} (l : List α) :
    (l.map (fun _ => ([] : List β))).flatten = [] := by
  induction l with
  | nil => rfl
  | cons a t ih => simp [ih]

theorem label_string_to_vector_mem {classes : List String} {label : String}
    (hnd : classes.Nodup) (hmem : label ∈ classes) :
    ∃ j, j < classes.length ∧ classes.getD j "" = label ∧
      label_string_to_vector label classes =
        some ((np_arange classes.length).map (fun i => if i = j then (1 : ℚ) else 0)) := by
  obtain ⟨j, hj, hget, hwhere⟩ := np_where_singleton hnd hmem
  refine ⟨j, hj, hget, ?_⟩
  rw [label_string_to_vector]
  simp only [hwhere, List.map_cons, List.map_nil]
  rw [flatten_map_singleton, if_pos]
  simp [np_arange_eq_range]

theorem label_string_to_vector_not_mem {classes : List String} {label : String}
    (hne : classes ≠ []) (hnm : label ∉ classes) :
    label_string_to_vector label classes = none := by
  rw [label_string_to_vector]
  simp only [np_where_eq_nil hnm, List.map_nil]
  rw [flatten_map_nil, if_neg]
  intro h
  exact hne (List.eq_nil_of_length_eq_zero h.symm)

theorem label_vector_to_string_indicator {classes : List String} {j : Nat}
    (hj : j < classes.length) :
    label_vector_to_string
        ((np_arange classes.length).map (fun i => if i = j then (1 : ℚ) else 0)) classes =
      some (classes.getD j "") := by
  rw [label_vector_to_string, if_neg]
  · rw [argmax_indicator hj, List.getElem?_eq_getElem hj,
      List.getD_eq_getElem classes "" hj]
  · intro h
    rw [List.isEmpty_iff] at h
    have hlen := congrArg List.length h
    simp only [List.length_map, np_arange_eq_range, List.length_range, List.length_nil] at hlen
    omega

/-! ### Lemmas about the rounded one-hot vector -/

theorem get_rounded_label_vector_entries {v : Vec} :
    ∀ x ∈ get_rounded_label_vector v, x = 0 ∨ x = 1 := by
  intro x hx
  obtain ⟨i, _, rfl⟩ := List.mem_map.mp hx
  by_cases h : i = argmax v
  · simp [h]
  · simp [h]

theorem get_rounded_label_vector_sum {v : Vec} (h : v ≠ []) :
    (get_rounded_label_vector v).sum = 1 := by
  rw [get_rounded_label_vector]
  have := sum_indicator_np_arange v.length (argmax v)
  rw [this, if_pos (argmax_lt_length h)]

theorem get_rounded_label_vector_at_argmax {v : Vec} (h : v ≠ []) :
    (get_rounded_label_vector v).getD (argmax v) 0 = 1 := by
  rw [get_rounded_label_vector, getD_map_np_arange _ 0 (argmax_lt_length h)]
  simp

/-! ### Counting lemmas for the confusion matrix -/

theorem bool_eq_of_iff {a b : Bool} (h : a = true ↔ b = true) : a = b := by
  cases a <;> cases b <;> simp_all

theorem getD_map_of_lt {α β : Type _} (f : α → β) {l : List α} {i : Nat} (d : β) (d' : α)
    (h : i < l.length) : (l.map f).getD i d = f (l.getD i d') := by
  rw [List.getD_eq_getElem _ d (by simpa using h), List.getElem_map,
    List.getD_eq_getElem _ d' h]

theorem sum_indicator_not_mem {cs : List String} {x : String} (h : x ∉ cs) :
    (cs.map (fun c => if x = c then (1 : Nat) else 0)).sum = 0 := by
  induction cs with
  | nil => rfl
  | cons a t ih =>
    have hxa : x ≠ a := fun hc => h (hc ▸ List.mem_cons_self _ _)
    simp only [List.map_cons, List.sum_cons, if_neg hxa]
    rw [ih (fun hc => h (List.mem_cons_of_mem _ hc))]

theorem sum_indicator_mem {cs : List String} {x : String} (hnd : cs.Nodup) (h : x ∈ cs) :
    (cs.map (fun c => if x = c then (1 : Nat) else 0)).sum = 1 := by
  induction cs with
  | nil => simp at h
  | cons a t ih =>
    obtain ⟨ha, ht⟩ := List.nodup_cons.mp hnd
    by_cases hxa : x = a
    · subst hxa
      simp only [List.map_cons, List.sum_cons, if_pos rfl]
      rw [sum_indicator_not_mem ha]
      simp
    · have hxt : x ∈ t := (List.mem_cons.mp h).resolve_left hxa
      simp only [List.map_cons, List.sum_cons, if_neg hxa]
      rw [ih ht hxt]

theorem length_partition {cs : List String} (hnd : cs.Nodup) (f : Nat → String) (ks : List Nat)
    (hall : ∀ k ∈ ks, f k ∈ cs) :
    (cs.map (fun c => (ks.filter (fun k => f k == c)).length)).sum = ks.length := by
  induction ks with
  | nil => simp
  | cons k ks ih =>
    have h1 : ∀ c : String, ((k :: ks).filter (fun k' => f k' == c)).length
        = (ks.filter (fun k' => f k' == c)).length + (if f k = c then 1 else 0) := by
      intro c
      rw [List.filter_cons]
      by_cases h : f k = c
      · simp [h]
      · simp [h]
    simp only [h1]
    rw [List.sum_map_add]
    rw [ih (fun k' hk' => hall k' (List.mem_cons_of_mem _ hk'))]
    rw [sum_indicator_mem hnd (hall k (List.mem_cons_self _ _))]
    simp [List.length_cons]

theorem confusion_cell_eq {pred labels : List String} (hlen : pred.length = labels.length)
    (p t : String) :
    confusion_cell pred labels p t =
      ((np_arange labels.length).filter
        (fun i => (pred.getD i "" == p) && (labels.getD i "" == t))).length := by
  rw [confusion_cell]
  have hcong : (np_where labels t).filter (fun i => decide (i ∈ np_where pred p))
      = (np_where labels t).filter (fun i => pred.getD i "" == p) := by
    apply List.filter_congr
    intro i hi
    apply bool_eq_of_iff
    simp only [decide_eq_true_eq, beq_iff_eq, mem_np_where]
    constructor
    · rintro ⟨_, h⟩; exact h
    · intro h
      refine ⟨?_, h⟩
      rw [hlen]
      exact (mem_np_where.mp hi).1
  rw [hcong, np_where, List.filter_filter]

theorem confusion_row_sum {pred labels : List String} (hlen : pred.length = labels.length)
    (p : String) :
    ((np_unique labels).map (fun t => confusion_cell pred labels p t)).sum
      = ((np_arange labels.length).filter (fun i => pred.getD i "" == p)).length := by
  have hcell : ∀ t : String, confusion_cell pred labels p t
      = (((np_arange labels.length).filter (fun i => pred.getD i "" == p)).filter
          (fun i => labels.getD i "" == t)).length := by
    intro t
    rw [confusion_cell_eq hlen, List.filter_filter]
    congr 1
    apply List.filter_congr
    intro i _
    rw [Bool.and_comm]
  simp only [hcell]
  apply length_partition (np_unique_nodup labels)
  intro k hk
  have hk' : k < labels.length := mem_np_arange.mp (List.mem_of_mem_filter hk)
  exact mem_np_unique.mpr (getD_mem "" hk')

theorem confusion_col_sum {pred labels : List String} (hlen : pred.length = labels.length)
    (hsub : ∀ x ∈ pred, x ∈ labels) (t : String) :
    ((np_unique labels).map (fun p => confusion_cell pred labels p t)).sum
      = ((np_arange labels.length).filter (fun i => labels.getD i "" == t)).length := by
  have hcell : ∀ p : String, confusion_cell pred labels p t
      = (((np_arange labels.length).filter (fun i => labels.getD i "" == t)).filter
          (fun i => pred.getD i "" == p)).length := by
    intro p
    rw [confusion_cell_eq hlen, List.filter_filter]
  simp only [hcell]
  apply length_partition (np_unique_nodup labels)
  intro k hk
  have hk' : k < labels.length := mem_np_arange.mp (List.mem_of_mem_filter hk)
  have hkp : k < pred.length := by omega
  exact mem_np_unique.mpr (hsub _ (getD_mem "" hkp))

theorem confusion_total_sum {pred labels : List String} (hlen : pred.length = labels.length)
    (hsub : ∀ x ∈ pred, x ∈ labels) :
    ((np_unique labels).map (fun p =>
      ((np_arange labels.length).filter (fun i => pred.getD i "" == p)).length)).sum
      = labels.length := by
  have hpart := length_partition (np_unique_nodup labels) (fun i => pred.getD i "")
    (np_arange labels.length) ?_
  · rw [hpart]
    simp [np_arange_eq_range]
  · intro k hk
    have hk' : k < labels.length := mem_np_arange.mp hk
    have hkp : k < pred.length := by omega
    exact mem_np_unique.mpr (hsub _ (getD_mem "" hkp))

/-! ### Lemmas about the dataset splitter -/

theorem indices_by_class_ne_nil {labels : List String} (h : labels ≠ []) :
    indices_by_class labels ≠ [] := by
  rw [indices_by_class]
  simp only [ne_eq, List.map_eq_nil_iff]
  exact np_unique_ne_nil h

theorem mem_indices_by_class {labels : List String} {r : List Nat} :
    r ∈ indices_by_class labels ↔ ∃ c ∈ np_unique labels, np_where labels c = r := by
  rw [indices_by_class]
  simp [List.mem_map]

theorem take_drop_disjoint {α : Type _} {l : List α} {n : Nat} {a : α}
    (hnd : l.Nodup) (h1 : a ∈ l.take n) (h2 : a ∈ l.drop n) : False := by
  have := (List.nodup_append.mp (by rwa [List.take_append_drop n l])).2.2
  exact this h1 h2

theorem split_dataset_eq (samples : Mat) (labels : List String) (si : Nat)
    (hne : labels ≠ [])
    (hcnt : ∀ c₁ ∈ np_unique labels, ∀ c₂ ∈ np_unique labels,
      (np_where labels c₁).length = (np_where labels c₂).length) :
    split_dataset samples labels si =
      some (((((indices_by_class labels).map (fun r => r.take si)).flatten).map
               (fun i => samples.getD i []),
             (((indices_by_class labels).map (fun r => r.take si)).flatten).map
               (fun i => labels.getD i "")),
            ((((indices_by_class labels).map (fun r => r.drop si)).flatten).map
               (fun i => samples.getD i []),
             (((indices_by_class labels).map (fun r => r.drop si)).flatten).map
               (fun i => labels.getD i ""))) := by
  rcases h : indices_by_class labels with _ | ⟨r0, rest⟩
  · exact absurd h (indices_by_class_ne_nil hne)
  · have hall : ((r0 :: rest).all (fun r => r.length == r0.length)) = true := by
      simp only [List.all_eq_true, beq_iff_eq]
      intro r hr
      obtain ⟨c, hc, hceq⟩ := mem_indices_by_class.mp (h ▸ hr)
      obtain ⟨c0, hc0, hc0eq⟩ := mem_indices_by_class.mp
        (h ▸ (List.mem_cons_self r0 rest : r0 ∈ r0 :: rest))
      rw [← hceq, ← hc0eq]
      exact hcnt c hc c0 hc0
    simp only [split_dataset, h, hall, if_true]

theorem split_dataset_ragged {samples : Mat} {labels : List String} {si : Nat}
    {c₁ c₂ : String} (hc₁ : c₁ ∈ labels) (hc₂ : c₂ ∈ labels)
    (hcnt : (np_where labels c₁).length ≠ (np_where labels c₂).length) :
    split_dataset samples labels si = none := by
  rcases h : indices_by_class labels with _ | ⟨r0, rest⟩
  · simp [split_dataset, h]
  · have hall : ((r0 :: rest).all (fun r => r.length == r0.length)) = false := by
      by_contra hcon
      rw [Bool.not_eq_false, List.all_eq_true] at hcon
      have hm₁ : np_where labels c₁ ∈ indices_by_class labels := by
        rw [indices_by_class]
        exact List.mem_map.mpr ⟨c₁, mem_np_unique.mpr hc₁, rfl⟩
      have hm₂ : np_where labels c₂ ∈ indices_by_class labels := by
        rw [indices_by_class]
        exact List.mem_map.mpr ⟨c₂, mem_np_unique.mpr hc₂, rfl⟩
      have h₁ := hcon _ (h ▸ hm₁)
      have h₂ := hcon _ (h ▸ hm₂)
      rw [beq_iff_eq] at h₁ h₂
      exact hcnt (h₂ ▸ h₁)
    simp only [split_dataset, h, hall, Bool.false_eq_true, if_false]

theorem mem_flatten_take {labels : List String} {si : Nat} {i : Nat} :
    i ∈ ((indices_by_class labels).map (fun r => r.take si)).flatten ↔
      ∃ c ∈ np_unique labels, i ∈ (np_where labels c).take si := by
  simp only [List.mem_flatten, List.mem_map]
  constructor
  · rintro ⟨L, ⟨r, hr, rfl⟩, hiL⟩
    obtain ⟨c, hc, rfl⟩ := mem_indices_by_class.mp hr
    exact ⟨c, hc, hiL⟩
  · rintro ⟨c, hc, hi⟩
    exact ⟨(np_where labels c).take si,
      ⟨np_where labels c, mem_indices_by_class.mpr ⟨c, hc, rfl⟩, rfl⟩, hi⟩

theorem mem_flatten_drop {labels : List String} {si : Nat} {i : Nat} :
    i ∈ ((indices_by_class labels).map (fun r => r.drop si)).flatten ↔
      ∃ c ∈ np_unique labels, i ∈ (np_where labels c).drop si := by
  simp only [List.mem_flatten, List.mem_map]
  constructor
  · rintro ⟨L, ⟨r, hr, rfl⟩, hiL⟩
    obtain ⟨c, hc, rfl⟩ := mem_indices_by_class.mp hr
    exact ⟨c, hc, hiL⟩
  · rintro ⟨c, hc, hi⟩
    exact ⟨(np_where labels c).drop si,
      ⟨np_where labels c, mem_indices_by_class.mpr ⟨c, hc, rfl⟩, rfl⟩, hi⟩

theorem split_indices_disjoint {labels : List String} {si : Nat} {i : Nat}
    (h1 : i ∈ ((indices_by_class labels).map (fun r => r.take si)).flatten)
    (h2 : i ∈ ((indices_by_class labels).map (fun r => r.drop si)).flatten) : False := by
  obtain ⟨c, _, hc⟩ := mem_flatten_take.mp h1
  obtain ⟨c', _, hc'⟩ := mem_flatten_drop.mp h2
  have heq : c = c' := by
    have e1 := (mem_np_where.mp (List.take_subset si _ hc)).2
    have e2 := (mem_np_where.mp (List.drop_subset si _ hc')).2
    rw [← e1, ← e2]
  subst heq
  exact take_drop_disjoint (np_where_nodup labels c) hc hc'

theorem split_indices_cover {labels : List String} {si : Nat} {i : Nat} :
    (i ∈ ((indices_by_class labels).map (fun r => r.take si)).flatten
      ∨ i ∈ ((indices_by_class labels).map (fun r => r.drop si)).flatten) ↔
    i < labels.length := by
  constructor
  · intro h
    rcases h with h | h
    · obtain ⟨c, _, hc⟩ := mem_flatten_take.mp h
      exact (mem_np_where.mp (List.take_subset si _ hc)).1
    · obtain ⟨c, _, hc⟩ := mem_flatten_drop.mp h
      exact (mem_np_where.mp (List.drop_subset si _ hc)).1
  · intro h
    have hmem : i ∈ np_where labels (labels.getD i "") :=
      mem_np_where.mpr ⟨h, rfl⟩
    have hcls : labels.getD i "" ∈ np_unique labels :=
      mem_np_unique.mpr (getD_mem "" h)
    rw [← List.take_append_drop si (np_where labels (labels.getD i "")),
      List.mem_append] at hmem
    rcases hmem with hm | hm
    · exact Or.inl (mem_flatten_take.mpr ⟨_, hcls, hm⟩)
    · exact Or.inr (mem_flatten_drop.mpr ⟨_, hcls, hm⟩)

/-! ### Claim C1: the gradient step -/

/-- C1 (counterexample): the claim quantifies over every equal-length batch
and every class count (`G has shape numClasses × (numFeatures+1)`), but the
source hard-codes `num_classes = 3`: on a 2-class batch the reshape of the
per-sample delta to `(3, 1)` fails, so no matrix `W − α·G` is returned. -/
theorem C1_counterexample :
    get_next_weight_matrix [[1/2, 1/2]] [[1, 0]] [[1, 1]] [[0, 0], [0, 0]] (1/100) = none := by
  decide

/-- C1 (amended): for non-empty equal-length batches whose label vectors
have length 3, whose samples share the first sample's length, and whose
weight matrix is `3 × (numFeatures+1)`, the gradient step returns
`W − learningRate · G` with `G` the sum over samples of the outer product
of `δ_k = (predicted_k − true_k) ⊙ predicted_k ⊙ (1 − predicted_k)` with
`sample_k`, and `G` has shape `3 × (numFeatures+1)`. -/
theorem C1_gradient_step (p l : Mat) (s0 : Vec) (srest : List Vec) (W : Mat) (a : ℚ)
    (hpl : p.length = l.length) (hps : p.length = (s0 :: srest).length)
    (hp3 : ∀ v ∈ p, v.length = 3) (hl3 : ∀ v ∈ l, v.length = 3)
    (hs : ∀ x ∈ s0 :: srest, x.length = s0.length)
    (hW3 : W.length = 3) (hWr : ∀ r ∈ W, r.length = s0.length) :
    get_next_weight_matrix p l (s0 :: srest) W a =
      some (matSub W (smulMat a (grad_W_MSE_sum p l (s0 :: srest) s0.length)))
    ∧ (grad_W_MSE_sum p l (s0 :: srest) s0.length).length = 3
    ∧ ∀ r ∈ grad_W_MSE_sum p l (s0 :: srest) s0.length, r.length = s0.length := by
  have hne : p ≠ [] := by
    intro h
    rw [h] at hps
    simp at hps
  refine ⟨get_next_weight_matrix_eq hne hpl hps hp3 hl3 hs hW3 hWr, ?_, ?_⟩
  · exact (grad_W_MSE_sum_shape p l (s0 :: srest) s0.length hpl (le_of_eq hps) hp3 hl3 hs).1
  · exact (grad_W_MSE_sum_shape p l (s0 :: srest) s0.length hpl (le_of_eq hps) hp3 hl3 hs).2

/-- C1 (witness): the amended gradient-step theorem applied to a concrete
one-sample, three-class batch. -/
theorem C1_gradient_step_witness :
    get_next_weight_matrix [[1/2, 1/2, 1/2]] [[1, 0, 0]] [[1, 1]]
        [[0, 0], [0, 0], [0, 0]] (1/100) =
      some (matSub [[0, 0], [0, 0], [0, 0]] (smulMat (1/100)
        (grad_W_MSE_sum [[1/2, 1/2, 1/2]] [[1, 0, 0]] [[1, 1]] ([1, 1] : Vec).length)))
    ∧ (grad_W_MSE_sum [[1/2, 1/2, 1/2]] [[1, 0, 0]] [[1, 1]] ([1, 1] : Vec).length).length = 3
    ∧ ∀ r ∈ grad_W_MSE_sum [[1/2, 1/2, 1/2]] [[1, 0, 0]] [[1, 1]] ([1, 1] : Vec).length,
        r.length = ([1, 1] : Vec).length :=
  C1_gradient_step [[1/2, 1/2, 1/2]] [[1, 0, 0]] [1, 1] [] [[0, 0], [0, 0], [0, 0]] (1/100)
    (by decide) (by decide) (by decide) (by decide) (by decide) (by decide) (by decide)

/-! ### Claim C2: the MSE -/

/-- C2 (code bug): the specification (and the source's own reference to
eq. 3.19) says half the sum of squared elementwise errors, but
`np.sum(Eᵀ @ E) / 2` adds ALL entries of the Gram matrix, i.e. also the
cross-class products.  At predicted `[[1, 0]]`, true `[[0, 1]]` the error is
`[1, −1]`, the spec value is `1`, and the code returns `0`. -/
theorem C2_mse_bug : get_MSE [[1, 0]] [[0, 1]] = some 0 ∧ mse_spec [[1, 0]] [[0, 1]] = 1 := by
  constructor <;>
    simp [get_MSE, mse_spec, matMul, dot, vSub, np_transpose, np_arange, Function.comp]

/-! ### Claim C4: encode/decode round trip -/

/-- C4: for every deduplicated ordered class set (the data model's
`ClassSet`) and every label occurring in it, encoding to a one-hot vector
and decoding by stable first-max argmax returns the original label. -/
theorem C4_roundtrip (classes : List String) (label : String)
    (hnd : classes.Nodup) (hmem : label ∈ classes) :
    (label_string_to_vector label classes).bind
      (fun v => label_vector_to_string v classes) = some label := by
  obtain ⟨j, hj, hget, henc⟩ := label_string_to_vector_mem hnd hmem
  rw [henc, Option.some_bind, label_vector_to_string_indicator hj, hget]

/-- C4 (witness): the round trip on a concrete three-class set. -/
theorem C4_roundtrip_witness :
    (label_string_to_vector "b" ["a", "b", "c"]).bind
      (fun v => label_vector_to_string v ["a", "b", "c"]) = some "b" :=
  C4_roundtrip ["a", "b", "c"] "b" (by decide) (by decide)

/-! ### Claim C7: encode error behavior -/

/-- C7 (counterexample): with an empty class set the reference `encode`
does not fail at all — the reshape of a size-0 array to length 0 succeeds
and an empty vector is returned — although the label is not in the class
set. -/
theorem C7_counterexample :
    label_string_to_vector "A" [] = some [] ∧ "A" ∉ ([] : List String) := by
  decide

/-- C7 (amended): for every NON-EMPTY deduplicated class set, encode fails
if and only if the label does not occur in the class set, and on a label
that does occur it returns the one-hot vector with the 1 at the label's
position. -/
theorem C7_encode (classes : List String) (label : String)
    (hne : classes ≠ []) (hnd : classes.Nodup) :
    (label_string_to_vector label classes = none ↔ label ∉ classes)
    ∧ (label ∈ classes → ∃ j, j < classes.length ∧ classes.getD j "" = label ∧
        label_string_to_vector label classes =
          some ((np_arange classes.length).map (fun i => if i = j then (1 : ℚ) else 0))) := by
  constructor
  · constructor
    · intro h hmem
      obtain ⟨j, hj, hget, henc⟩ := label_string_to_vector_mem hnd hmem
      rw [henc] at h
      exact Option.noConfusion h
    · intro h
      exact label_string_to_vector_not_mem hne h
  · intro hmem
    exact label_string_to_vector_mem hnd hmem

/-- C7 (witness): the amended encode theorem applied to a concrete
two-class set and a label it contains. -/
theorem C7_encode_witness :
    (label_string_to_vector "b" ["a", "b"] = none ↔ "b" ∉ (["a", "b"] : List String))
    ∧ ("b" ∈ (["a", "b"] : List String) →
        ∃ j, j < (["a", "b"] : List String).length
          ∧ (["a", "b"] : List String).getD j "" = "b"
          ∧ label_string_to_vector "b" ["a", "b"] =
              some ((np_arange (["a", "b"] : List String).length).map
                (fun i => if i = j then (1 : ℚ) else 0))) :=
  C7_encode ["a", "b"] "b" (by decide) (by decide)

/-! ### Claim C8: rounding to one-hot -/

/-- C8: for every non-empty label vector, `get_rounded_label_vector`
returns a vector whose entries are all 0 or 1, whose sum is exactly 1, and
whose single 1 sits at the argmax index, which is the first index achieving
the maximum. -/
theorem C8_round_one_hot (v : Vec) (h : v ≠ []) :
    (∀ x ∈ get_rounded_label_vector v, x = 0 ∨ x = 1)
    ∧ (get_rounded_label_vector v).sum = 1
    ∧ (get_rounded_label_vector v).getD (argmax v) 0 = 1
    ∧ argmax v < v.length
    ∧ (∀ j < v.length, v.getD j 0 ≤ v.getD (argmax v) 0)
    ∧ (∀ j < argmax v, v.getD j 0 < v.getD (argmax v) 0) :=
  ⟨get_rounded_label_vector_entries, get_rounded_label_vector_sum h,
   get_rounded_label_vector_at_argmax h, argmax_lt_length h,
   argmax_is_max, argmax_first⟩

/-- C8 (witness): the rounding theorem applied to the concrete vector
`[1, 2]`. -/
theorem C8_round_one_hot_witness :
    (∀ x ∈ get_rounded_label_vector [1, 2], x = 0 ∨ x = 1)
    ∧ (get_rounded_label_vector [1, 2]).sum = 1
    ∧ (get_rounded_label_vector [1, 2]).getD (argmax [1, 2]) 0 = 1
    ∧ argmax [1, 2] < ([1, 2] : Vec).length
    ∧ (∀ j < ([1, 2] : Vec).length,
        ([1, 2] : Vec).getD j 0 ≤ ([1, 2] : Vec).getD (argmax [1, 2]) 0)
    ∧ (∀ j < argmax [1, 2], ([1, 2] : Vec).getD j 0 < ([1, 2] : Vec).getD (argmax [1, 2]) 0) :=
  C8_round_one_hot [1, 2] (by decide)

/-! ### Claim C3: the training loop -/

/-- C3 (counterexample): on an empty training set the first iteration's
gradient step fails at `samples[0]` (IndexError), so with N = 1 the trainer
does not return length-1 metric series — the claim's universal
quantification over every training set fails. -/
theorem C3_counterexample :
    train_linear_classifier (fun _ => 0) [] [] [[1]] [[1, 0, 0]] [] 1 (1/100) = none := by
  decide

/-- C3 (amended): for every NON-EMPTY, well-formed training and evaluation
set (samples of length `numFeatures+1`, train AND test label vectors of
length 3, parallel lengths) and every `N ≥ 0`, the trainer runs exactly `N`
iterations and
returns MSE and error-rate series of length `N`; for `N = 0` it returns the
all-zero initial weight matrix and empty series (regardless of the abstract
exponential `e`). -/
theorem C3_trainer (e : ℚ → ℚ) (ts tl tes tel : Mat) (features : List String) (N : Nat)
    (a : ℚ)
    (hts : ts ≠ [])
    (hts_len : ∀ x ∈ ts, x.length = features.length + 1)
    (htl_len : tl.length = ts.length)
    (htl3 : ∀ v ∈ tl, v.length = 3)
    (htes : ∀ x ∈ tes, x.length = features.length + 1)
    (htel : tel.length = tes.length)
    (htel3 : ∀ v ∈ tel, v.length = 3)
    (htel_ne : tel ≠ []) :
    ∃ W ms errs, train_linear_classifier e ts tl tes tel features N a = some (W, ms, errs)
      ∧ ms.length = N ∧ errs.length = N
      ∧ (N = 0 → W = zerosMat 3 (features.length + 1) ∧ ms = [] ∧ errs = []) := by
  obtain ⟨W', ms', errs', hrun, hms, herrs, _, _⟩ :=
    run_train_iterations e ts tl tes tel a features.length hts hts_len htl_len htl3 htes
      htel htel3 htel_ne N (zerosMat 3 (features.length + 1)) [] []
      (length_zerosMat _ _) (fun r hr => mem_zerosMat_length hr)
  simp only [List.nil_append] at hrun
  refine ⟨W', ms', errs', hrun, hms, herrs, ?_⟩
  intro hN
  subst hN
  rw [run_iterations, Option.some_inj] at hrun
  exact ⟨(congrArg Prod.fst hrun).symm, (congrArg (fun q => q.2.1) hrun).symm,
    (congrArg (fun q => q.2.2) hrun).symm⟩

/-- C3 (witness): the amended trainer theorem on a concrete one-sample
train/test pair, two iterations. -/
theorem C3_trainer_witness :
    ∃ W ms errs,
      train_linear_classifier (fun _ => (0 : ℚ)) [[1]] [[1, 0, 0]] [[1]] [[1, 0, 0]] [] 2 1
        = some (W, ms, errs)
      ∧ ms.length = 2 ∧ errs.length = 2
      ∧ (2 = 0 → W = zerosMat 3 (List.length ([] : List String) + 1) ∧ ms = [] ∧ errs = []) :=
  C3_trainer (fun _ => 0) [[1]] [[1, 0, 0]] [[1]] [[1, 0, 0]] [] 2 1
    (by decide) (by decide) (by decide) (by decide) (by decide) (by decide) (by decide)
    (by decide)

/-! ### Claim C9: the class count is hard-coded to 3 -/

/-- C5 (counterexample): the classes of the confusion matrix are
`np.unique` of the TRUE labels only, so a sample whose predicted label does
not occur among the true labels is counted in no cell: with predicted
`["B"]` and true `["A"]` the matrix is `[[0]]` and the sum over all cells
is 0, not the sample count 1. -/
theorem C5_counterexample :
    ((get_confusion_matrix ["B"] ["A"]).map (fun r => r.sum)).sum
      ≠ (["B"] : List String).length := by
  decide

/-- C5 (amended): for equal-length label sequences in which every predicted
label also occurs among the true labels, cell `(p, t)` counts the indices
predicted `p` and truly `t`, the sum over all cells is the sample count,
each row sum is the count predicted as that class, and each column sum is
the count truly labeled that class. -/
theorem C5_confusion (pred labels : List String)
    (hlen : pred.length = labels.length) (hsub : ∀ x ∈ pred, x ∈ labels) :
    (∀ i, i < (np_unique labels).length → ∀ j, j < (np_unique labels).length →
      ((get_confusion_matrix pred labels).getD i []).getD j 0
        = ((np_arange labels.length).filter (fun k =>
            (pred.getD k "" == (np_unique labels).getD i "")
              && (labels.getD k "" == (np_unique labels).getD j ""))).length)
    ∧ ((get_confusion_matrix pred labels).map (fun r => r.sum)).sum = labels.length
    ∧ (∀ i, i < (np_unique labels).length →
        ((get_confusion_matrix pred labels).getD i []).sum
          = ((np_arange labels.length).filter
              (fun k => pred.getD k "" == (np_unique labels).getD i "")).length)
    ∧ (∀ j, j < (np_unique labels).length →
        ((get_confusion_matrix pred labels).map (fun r => r.getD j 0)).sum
          = ((np_arange labels.length).filter
              (fun k => labels.getD k "" == (np_unique labels).getD j "")).length) := by
  refine ⟨?_, ?_, ?_, ?_⟩
  · intro i hi j hj
    rw [get_confusion_matrix]
    rw [getD_map_of_lt _ [] "" hi, getD_map_of_lt _ 0 "" hj]
    exact confusion_cell_eq hlen _ _
  · rw [get_confusion_matrix]
    simp only [List.map_map, Function.comp_def]
    have hrow : ∀ c ∈ np_unique labels,
        ((np_unique labels).map (fun t => confusion_cell pred labels c t)).sum
          = ((np_arange labels.length).filter (fun i => pred.getD i "" == c)).length :=
      fun c _ => confusion_row_sum hlen c
    rw [List.map_congr_left hrow]
    exact confusion_total_sum hlen hsub
  · intro i hi
    rw [get_confusion_matrix, getD_map_of_lt _ [] "" hi]
    exact confusion_row_sum hlen _
  · intro j hj
    rw [get_confusion_matrix]
    simp only [List.map_map, Function.comp_def]
    have hcol : ∀ c ∈ np_unique labels,
        ((np_unique labels).map (fun t => confusion_cell pred labels c t)).getD j 0
          = confusion_cell pred labels c ((np_unique labels).getD j "") :=
      fun c _ => getD_map_of_lt _ 0 "" hj
    rw [List.map_congr_left hcol]
    exact confusion_col_sum hlen hsub _

/-- C5 (witness): the amended confusion-matrix theorem on a concrete
two-class sample set. -/
theorem C5_confusion_witness :
    (∀ i, i < (np_unique ["x", "y"]).length → ∀ j, j < (np_unique ["x", "y"]).length →
      ((get_confusion_matrix ["y", "y"] ["x", "y"]).getD i []).getD j 0
        = ((np_arange (["x", "y"] : List String).length).filter (fun k =>
            ((["y", "y"] : List String).getD k "" == (np_unique ["x", "y"]).getD i "")
              && ((["x", "y"] : List String).getD k ""
                    == (np_unique ["x", "y"]).getD j ""))).length)
    ∧ ((get_confusion_matrix ["y", "y"] ["x", "y"]).map (fun r => r.sum)).sum
        = (["x", "y"] : List String).length
    ∧ (∀ i, i < (np_unique ["x", "y"]).length →
        ((get_confusion_matrix ["y", "y"] ["x", "y"]).getD i []).sum
          = ((np_arange (["x", "y"] : List String).length).filter
              (fun k => (["y", "y"] : List String).getD k ""
                == (np_unique ["x", "y"]).getD i "")).length)
    ∧ (∀ j, j < (np_unique ["x", "y"]).length →
        ((get_confusion_matrix ["y", "y"] ["x", "y"]).map (fun r => r.getD j 0)).sum
          = ((np_arange (["x", "y"] : List String).length).filter
              (fun k => (["x", "y"] : List String).getD k ""
                == (np_unique ["x", "y"]).getD j "")).length) :=
  C5_confusion ["y", "y"] ["x", "y"] (by decide) (by decide)

/-! ### Claim C6: the dataset splitter -/

/-- C6 (counterexample): the claim quantifies over every dataset, but when
the classes have unequal sample counts the per-class index lists are ragged
and the 2-D slice of their `np.array` packing raises, so no partition is
returned (split index 1 is within the smallest class's count here). -/
theorem C6_counterexample :
    split_dataset [[1], [1], [1]] ["A", "A", "B"] 1 = none := by
  decide

/-- C6 (amended): for every non-empty dataset whose classes all have the
same sample count and every splitIndex, the splitter groups sample indices
by class (each class group ascending, i.e. in original relative order),
gathers indices `[0, splitIndex)` of each class group into the first set
and the rest into the last set, and the two index sets are disjoint and
together cover exactly the sample indices. -/
theorem C6_split (samples : Mat) (labels : List String) (si : Nat)
    (hne : labels ≠ [])
    (hcnt : ∀ c₁ ∈ np_unique labels, ∀ c₂ ∈ np_unique labels,
      (np_where labels c₁).length = (np_where labels c₂).length)
    (_hsl : samples.length = labels.length)
    (_hsi : ∀ c ∈ np_unique labels, si ≤ (np_where labels c).length) :
    split_dataset samples labels si =
      some (((((indices_by_class labels).map (fun r => r.take si)).flatten).map
               (fun i => samples.getD i []),
             (((indices_by_class labels).map (fun r => r.take si)).flatten).map
               (fun i => labels.getD i "")),
            ((((indices_by_class labels).map (fun r => r.drop si)).flatten).map
               (fun i => samples.getD i []),
             (((indices_by_class labels).map (fun r => r.drop si)).flatten).map
               (fun i => labels.getD i "")))
    ∧ (∀ r ∈ indices_by_class labels, List.Sorted (· < ·) r)
    ∧ (∀ i, i ∈ ((indices_by_class labels).map (fun r => r.take si)).flatten →
        i ∈ ((indices_by_class labels).map (fun r => r.drop si)).flatten → False)
    ∧ (∀ i, (i ∈ ((indices_by_class labels).map (fun r => r.take si)).flatten
        ∨ i ∈ ((indices_by_class labels).map (fun r => r.drop si)).flatten)
          ↔ i < labels.length) := by
  refine ⟨split_dataset_eq samples labels si hne hcnt, ?_, ?_, ?_⟩
  · intro r hr
    obtain ⟨c, _, rfl⟩ := mem_indices_by_class.mp hr
    exact np_where_sorted labels c
  · intro i h1 h2
    exact split_indices_disjoint h1 h2
  · intro i
    exact split_indices_cover

/-- C6 (witness): the amended splitter theorem on a concrete balanced
two-class dataset with split index 1. -/
theorem C6_split_witness :
    split_dataset [[1], [2], [3], [4]] ["A", "B", "A", "B"] 1 =
      some (((((indices_by_class ["A", "B", "A", "B"]).map (fun r => r.take 1)).flatten).map
               (fun i => ([[1], [2], [3], [4]] : Mat).getD i []),
             (((indices_by_class ["A", "B", "A", "B"]).map (fun r => r.take 1)).flatten).map
               (fun i => (["A", "B", "A", "B"] : List String).getD i "")),
            ((((indices_by_class ["A", "B", "A", "B"]).map (fun r => r.drop 1)).flatten).map
               (fun i => ([[1], [2], [3], [4]] : Mat).getD i []),
             (((indices_by_class ["A", "B", "A", "B"]).map (fun r => r.drop 1)).flatten).map
               (fun i => (["A", "B", "A", "B"] : List String).getD i "")))
    ∧ (∀ r ∈ indices_by_class ["A", "B", "A", "B"], List.Sorted (· < ·) r)
    ∧ (∀ i, i ∈ ((indices_by_class ["A", "B", "A", "B"]).map (fun r => r.take 1)).flatten →
        i ∈ ((indices_by_class ["A", "B", "A", "B"]).map (fun r => r.drop 1)).flatten → False)
    ∧ (∀ i, (i ∈ ((indices_by_class ["A", "B", "A", "B"]).map (fun r => r.take 1)).flatten
        ∨ i ∈ ((indices_by_class ["A", "B", "A", "B"]).map (fun r => r.drop 1)).flatten)
          ↔ i < (["A", "B", "A", "B"] : List String).length) :=
  C6_split [[1], [2], [3], [4]] ["A", "B", "A", "B"] 1
    (by decide) (by decide) (by decide) (by decide)

/-! ### Claim C10: the splitter requires balanced classes -/

/-- C10: whenever two classes occurring in the labels have different sample
counts, the per-class index lists are ragged and `split_dataset` fails
instead of returning a partition. -/
theorem C10_split_unequal (samples : Mat) (labels : List String) (si : Nat) (c₁ c₂ : String)
    (hc₁ : c₁ ∈ labels) (hc₂ : c₂ ∈ labels)
    (hcnt : (np_where labels c₁).length ≠ (np_where labels c₂).length) :
    split_dataset samples labels si = none :=
  split_dataset_ragged hc₁ hc₂ hcnt

/-- C10 (witness): the unbalanced-classes failure theorem on a concrete
dataset with two "A" samples and one "B" sample. -/
theorem C10_split_unequal_witness :
    split_dataset [[1], [1], [1]] ["A", "A", "B"] 0 = none :=
  C10_split_unequal [[1], [1], [1]] ["A", "A", "B"] 0 "A" "B"
    (by decide) (by decide) (by decide)

end Iris
